import Mathlib

/-!
# piwatchdog: aggregator loop, watcher poller and Piwatcher register protocol

A shallow embedding of `main.go`, `piwatcher.go`, `url.go` and `dummy.go`.

Conventions
* `time.Time` and `time.Duration` are integers counting nanoseconds. Duration
  arithmetic is Go `int64` arithmetic, so every product is wrapped by `wrap64`.
* Go `int` values are integers; `x & 1` and `x & 0xff` on a two's-complement
  integer are the Euclidean remainders `x % 2` and `x % 256`, `x >> k` is the
  arithmetic shift `x >>> k`, and the conversion `byte(x)` is `x % 256`.
* The log calls of the source have no effect on the state and are left out.
-/

namespace Piwatchdog

/-! ## Machine arithmetic -/

/-- Two's-complement wrap of an integer into the `int64` range. -/
def wrap64 (x : Int) : Int := (x + 2 ^ 63) % 2 ^ 64 - 2 ^ 63

/-- The constant `time.Second`, in nanoseconds. -/
def Second : Int := 1000000000

/-- The conversion `byte(x)` of a Go `int`. -/
def toByte (x : Int) : Nat := (x % 256).toNat

/-! ## piwatcher.go -/

/-- Register offset `reg_status`. -/
def reg_status : Nat := 0

/-- Register offset `reg_watch`. -/
def reg_watch : Nat := 1

/-- Register offset `reg_wake`. -/
def reg_wake : Nat := 2

/-- The I2C transport of the external `go-i2c` library together with the
device behind it: `regs` is the register file (one byte per offset), `up`
tells whether transfers succeed, and `written` records every buffer that
`WriteBytes` has put on the bus. -/
structure I2C where
  regs : Nat → Nat
  up : Bool
  written : List (List Nat)

/-- Store the bytes `bs` in consecutive registers starting at `addr`. -/
def storeRegs (regs : Nat → Nat) : Nat → List Nat → Nat → Nat
  | _, [] => regs
  | addr, b :: bs => storeRegs (fun r => if r = addr then b else regs r) (addr + 1) bs

/-- The library call `i2c.WriteBytes(buf)`: the first byte of `buf` is the
register offset, the following bytes go to that register and its successors.
Returns the error (if any) and the bus afterwards. -/
def I2C.WriteBytes (bus : I2C) (buf : List Nat) : Option String × I2C :=
  if bus.up then
    match buf with
    | [] => (none, { bus with written := bus.written ++ [buf] })
    | addr :: bs =>
      (none, { bus with regs := storeRegs bus.regs addr bs, written := bus.written ++ [buf] })
  else (some "i2c write failed", bus)

/-- The library call `i2c.ReadRegU16LE(reg)`: the little-endian 16-bit value
held by registers `reg` (low byte) and `reg + 1` (high byte). -/
def I2C.ReadRegU16LE (bus : I2C) (reg : Nat) : Nat × Option String :=
  if bus.up then (bus.regs reg % 256 + 256 * (bus.regs (reg + 1) % 256), none)
  else (0, some "i2c read failed")

/-- The method `Piwatcher.SetWake`: returns the error (if any) and the bus
afterwards. -/
def SetWake (bus : I2C) (wake : Int) : Option String × I2C :=
  if wake % 2 ≠ 0 then
    (some "wake must be a multiple to 2", bus)
  else if wake > 131070 then
    (some "wake must be not be greater than 131070", bus)
  else
    let wake := wake >>> (1 : Nat)
    let buf := [reg_wake, toByte (wake % 256), toByte (wake >>> (8 : Nat))]
    bus.WriteBytes buf

/-- The method `Piwatcher.GetWake`: the decoded wake delay and the error. -/
def GetWake (bus : I2C) : Int × Option String :=
  let r := bus.ReadRegU16LE reg_wake
  ((r.1 : Int) * 2, r.2)

/-- A bus whose transport works, with all registers zero and nothing written. -/
def freshBus : I2C := { regs := fun _ => 0, up := true, written := [] }

/-! ## main.go: configuration types -/

/-- The struct `CommonWatcher`. -/
structure CommonWatcher where
  Period : Int
  Timeout : Int
deriving DecidableEq, Repr

/-- The method `CommonWatcher.PeriodD`: `time.Second * time.Duration(c.Period)`
in `int64` arithmetic, replaced by thirty seconds when it is zero. -/
def CommonWatcher.PeriodD (c : CommonWatcher) : Int :=
  let period := wrap64 (Second * c.Period)
  if period = 0 then Second * 30 else period

/-- The method `CommonWatcher.TimeoutD`. -/
def CommonWatcher.TimeoutD (c : CommonWatcher) : Int :=
  let timeout := wrap64 (Second * c.Timeout)
  if timeout = 0 then Second * 30 else timeout

/-- The struct `TemperatureWatcher` of temperature.go. -/
structure TemperatureWatcher where
  common : CommonWatcher
  Path : String
  FailureOver : Int
deriving DecidableEq, Repr

/-- The struct `UrlWatcher` of url.go. -/
structure UrlWatcher where
  common : CommonWatcher
  Url : String
  Execute : Bool
  Xtrace : Bool
deriving DecidableEq, Repr

/-- A value of the interface `Watcher`: one of the two implementing types.
Two interface values are the same map key when they are the same watcher. -/
inductive Watcher where
  | Temperature (t : TemperatureWatcher)
  | Url (u : UrlWatcher)
deriving DecidableEq, Repr

/-- The method `Config` of the interface `Watcher`. -/
def Watcher.Config : Watcher → CommonWatcher
  | .Temperature t => t.common
  | .Url u => u.common

/-- The method `Name` of the interface `Watcher`. -/
def Watcher.Name : Watcher → String
  | .Temperature _ => "temperature"
  | .Url _ => "url"

/-- The struct `Watchers`: each pointer field is present or nil. -/
structure Watchers where
  Temperature : Option TemperatureWatcher
  Url : Option UrlWatcher
deriving DecidableEq, Repr

/-- The function `configureWatchers`, on the `Watcher` field of the config. -/
def configureWatchers (config : Watchers) : List Watcher :=
  let ret : List Watcher := []
  let ret := match config.Temperature with
    | some t => ret ++ [Watcher.Temperature t]
    | none => ret
  let ret := match config.Url with
    | some u => ret ++ [Watcher.Url u]
    | none => ret
  ret

/-- The struct `DummyWatchdog` of dummy.go. -/
structure DummyWatchdog where
  Period : Int
deriving DecidableEq, Repr

/-- The configuration fields of the struct `Piwatcher`; `Watch` is a byte. -/
structure Piwatcher where
  Wake : Int
  Watch : Nat
deriving DecidableEq, Repr

/-- A value of the interface `Watchdog`. -/
inductive Watchdog where
  | Dummy (d : DummyWatchdog)
  | Piwatcher (p : Piwatcher)
deriving DecidableEq, Repr

/-- The method `PeriodD` of the interface `Watchdog`. -/
def Watchdog.PeriodD : Watchdog → Int
  | .Dummy d => wrap64 (d.Period * Second)
  | .Piwatcher p => wrap64 ((p.Watch % 256 : Nat) * Second)

/-- The ticker interval of `run`: `watchdog.PeriodD() / 2`, Go division
truncating towards zero. -/
def tickInterval (watchdog : Watchdog) : Int := (watchdog.PeriodD).tdiv 2

/-! ## main.go: the watcher poller `runWatcher` -/

/-- What one iteration of the loop of `runWatcher` does: whether it sent the
watcher on the channel `alive`, how long it slept, and the value of `backoff`
when the iteration ends. -/
structure Poll where
  alive : Bool
  slept : Int
  backoff : Int
deriving DecidableEq, Repr

/-- One iteration of the loop of `runWatcher`, with `err` the result of
`watcher.Check(ctx)` (`none` is a nil error). -/
def runWatcherStep (period backoff : Int) (err : Option String) : Poll :=
  match err with
  | none => { alive := true, slept := period, backoff := Second }
  | some _ =>
    let slept := backoff
    let backoff := wrap64 (backoff * 2)
    let backoff := if backoff > period then period else backoff
    { alive := false, slept := slept, backoff := backoff }

/-- The value of `backoff` after the loop of `runWatcher` has gone through the
check results `errs`, entered with the value `backoff`. -/
def backoffAfter (period : Int) : Int → List (Option String) → Int
  | backoff, [] => backoff
  | backoff, err :: errs => backoffAfter period (runWatcherStep period backoff err).backoff errs

/-- The function `runWatcher` on the finite prefix `errs` of its check
results: the iterations made, starting with `backoff := time.Second` and
`period := watcher.Config().PeriodD()`. -/
def runWatcherFrom (period : Int) : Int → List (Option String) → List Poll
  | _, [] => []
  | backoff, err :: errs =>
    runWatcherStep period backoff err
      :: runWatcherFrom period (runWatcherStep period backoff err).backoff errs

/-- The function `runWatcher` on a finite prefix of check results. -/
def runWatcher (watcher : Watcher) (errs : List (Option String)) : List Poll :=
  runWatcherFrom watcher.Config.PeriodD Second errs

/-! ## url.go -/

/-- The method `UrlWatcher.Check`. The results of its two collaborators are
inputs: `fetched` is what `fetchScript` returns (the body or an error) and
`executed` is the error that `executeScript` returns for a body (`none` is a
nil error; a script that fails or runs into the deadline gives `some`). -/
def UrlWatcher.Check (u : UrlWatcher) (fetched : Except String String)
    (executed : String → Option String) : Option String :=
  match fetched with
  | .error err => some err
  | .ok body =>
    if u.Execute then
      let _ := executed body
      none
    else
      none

/-! ## main.go: the aggregator loop of `run` -/

/-- The struct `WatcherState`. -/
structure WatcherState where
  due : Int
  good : Bool
deriving DecidableEq, Repr

/-- Lookup in the map `watcherStates`; `none` is the nil pointer of a missing
key. -/
def mapGet : List (Watcher × WatcherState) → Watcher → Option WatcherState
  | [], _ => none
  | (k, v) :: m, w => if k = w then some v else mapGet m w

/-- Assignment `m[w] = v` in the map `watcherStates`: an existing key keeps its
place, a new key is added. -/
def mapPut : List (Watcher × WatcherState) → Watcher → WatcherState →
    List (Watcher × WatcherState)
  | [], w, v => [(w, v)]
  | (k, x) :: m, w, v => if k = w then (w, v) :: m else (k, x) :: mapPut m w v

/-- The variables of the loop of `run`: the map `watcherStates` and the counter
`failing`. -/
structure AggState where
  watcherStates : List (Watcher × WatcherState)
  failing : Int
deriving DecidableEq, Repr

/-- What the select statement of `run` receives: a watcher from the channel
`alive`, together with the value of `time.Now()` read while handling it, or
the time `now` delivered by the ticker. -/
inductive Event where
  | alive (watcher : Watcher) (now : Int)
  | tick (now : Int)
deriving DecidableEq, Repr

/-- The map built by the start-up loop of `run`; each watcher comes with the
value of `time.Now()` read in its iteration. -/
def initStates : List (Watcher × Int) → List (Watcher × WatcherState) →
    List (Watcher × WatcherState)
  | [], m => m
  | (w, t) :: ws, m => initStates ws (mapPut m w { due := t, good := false })

/-- The state in which `run` enters its loop, every `Initialize()` having
succeeded: `failing := len(watchers)`. -/
def initState (ws : List (Watcher × Int)) : AggState :=
  { watcherStates := initStates ws [], failing := ws.length }

/-- The past-due loop of the tick case of `run`, over the entries of the map,
threading the counter `failing`. Go visits the entries in an unspecified
order; the loop body touches only the entry it visits and adds to the counter,
so the order of the list stands for any order of visit. -/
def scan (now : Int) : List (Watcher × WatcherState) → Int →
    List (Watcher × WatcherState) × Int
  | [], failing => ([], failing)
  | (w, state) :: m, failing =>
    if state.good && decide (state.due < now) then
      let r := scan now m (failing + 1)
      ((w, { state with good := false }) :: r.1, r.2)
    else
      let r := scan now m failing
      ((w, state) :: r.1, r.2)

/-- The grace that the alive case adds to `time.Now()`:
`watcher.Config().PeriodD() * 2` in `int64` arithmetic. -/
def grace (watcher : Watcher) : Int := wrap64 (watcher.Config.PeriodD * 2)

/-- One iteration of the loop of `run`. The result is the state afterwards and
whether `ping(watchdog)` was called; `none` is the nil-pointer panic on a
watcher that is not in the map. A `ping` whose `Ping()` fails ends the process
in `log.Fatalf`, so a run simply has no further iterations after it. -/
def step (s : AggState) : Event → Option (AggState × Bool)
  | .alive watcher now =>
    match mapGet s.watcherStates watcher with
    | none => none
    | some state =>
      let due := now + grace watcher
      if !state.good then
        let failing := s.failing - 1
        some ({ watcherStates := mapPut s.watcherStates watcher { due := due, good := true },
                failing := failing }, decide (failing = 0))
      else
        some ({ watcherStates := mapPut s.watcherStates watcher { due := due, good := state.good },
                failing := s.failing }, false)
  | .tick now =>
    if s.failing = 0 then
      let r := scan now s.watcherStates s.failing
      some ({ watcherStates := r.1, failing := r.2 }, decide (r.2 = 0))
    else
      some (s, false)

/-- The loop of `run` over a finite sequence of events. -/
def run : AggState → List Event → Option AggState
  | s, [] => some s
  | s, e :: es =>
    match step s e with
    | none => none
    | some r => run r.1 es

/-- The time stamp carried by an event. -/
def Event.time : Event → Int
  | .alive _ now => now
  | .tick now => now

/-- The number of watchers in the map whose state has `good == false`. -/
def countBad (m : List (Watcher × WatcherState)) : Nat :=
  m.countP (fun e => !e.2.good)

/-- Whether the event is a liveness event of the watcher `w`. -/
def Event.isAliveOf (w : Watcher) : Event → Bool
  | .alive watcher _ => decide (watcher = w)
  | .tick _ => false

/-- What the past-due loop does to one entry of the map at tick time `now`. -/
def markStale (now : Int) (e : Watcher × WatcherState) : Watcher × WatcherState :=
  if e.2.good && decide (e.2.due < now) then (e.1, { e.2 with good := false }) else e

/-- Whether the past-due loop at tick time `now` flips the entry. -/
def isStale (now : Int) (e : Watcher × WatcherState) : Bool :=
  e.2.good && decide (e.2.due < now)

/-- The invariant of the loop of `run`: the keys of the map are distinct and
`failing` counts the entries with `good == false`. -/
def Inv (s : AggState) : Prop :=
  (s.watcherStates.map Prod.fst).Nodup ∧ s.failing = countBad s.watcherStates

/-! ## Sample data -/

/-- A temperature watcher polled every 10 seconds. -/
def watcherA : Watcher :=
  .Temperature { common := { Period := 10, Timeout := 5 }, Path := "/sys/temp", FailureOver := 70000 }

/-- A url watcher polled every 20 seconds that executes the fetched script. -/
def watcherB : Watcher :=
  .Url { common := { Period := 20, Timeout := 5 }, Url := "http://host/check", Execute := true,
         Xtrace := false }

/-- Both sample watchers, registered at time 0. -/
def sampleWatchers : List (Watcher × Int) := [(watcherA, 0), (watcherB, 0)]

/-- The sample state after watcher A alone has reported at time 0. -/
def sampleOnlyA : AggState :=
  { watcherStates := [(watcherA, { due := 20000000000, good := true }),
                      (watcherB, { due := 0, good := false })],
    failing := 1 }

/-- The sample state after both watchers have reported at time 0. -/
def sampleAllGood : AggState :=
  { watcherStates := [(watcherA, { due := 20000000000, good := true }),
                      (watcherB, { due := 40000000000, good := true })],
    failing := 0 }

/-- The sample state in which watcher A has been marked stale while watcher B,
last heard of at time 0, is still marked good. -/
def sampleStaleA : AggState :=
  { watcherStates := [(watcherA, { due := 20000000000, good := false }),
                      (watcherB, { due := 40000000000, good := true })],
    failing := 1 }

/-- Both sample watchers report at time 0; the tick at 25 s marks A stale, the
tick at 50 s finds `failing` at 1 and does not look at B. -/
def sampleEvents : List Event :=
  [.alive watcherA 0, .alive watcherB 0, .tick 25000000000, .tick 50000000000]

/-- A Piwatcher watchdog with a watch period of 15 seconds. -/
def sampleWatchdog : Watchdog := .Piwatcher { Wake := 600, Watch := 15 }

/-- The sample state after watcher B alone has reported at time 0. -/
def sampleOnlyB : AggState :=
  { watcherStates := [(watcherA, { due := 0, good := false }),
                      (watcherB, { due := 40000000000, good := true })],
    failing := 1 }

/-- The sample state reached from `sampleStaleA` when watcher A reports again
at 100 s: B, due since 40 s, is still marked good. -/
def sampleFedStale : AggState :=
  { watcherStates := [(watcherA, { due := 120000000000, good := true }),
                      (watcherB, { due := 40000000000, good := true })],
    failing := 0 }

/-! ### Lemmas on the map `watcherStates` -/

theorem mapGet_mapPut_same (m : List (Watcher × WatcherState)) (w : Watcher) (v : WatcherState) :
    mapGet (mapPut m w v) w = some v := by
  induction m with
  | nil => simp [mapPut, mapGet]
  | cons a m ih =>
    obtain ⟨k, x⟩ := a
    by_cases h : k = w
    · simp [mapPut, mapGet, h]
    · simp [mapPut, mapGet, h, ih]

theorem mapGet_mapPut_other (m : List (Watcher × WatcherState)) (w k : Watcher)
    (v : WatcherState) (h : k ≠ w) : mapGet (mapPut m w v) k = mapGet m k := by
  induction m with
  | nil =>
    have h' : ¬ w = k := fun e => h e.symm
    simp [mapPut, mapGet, h']
  | cons a m ih =>
    obtain ⟨k', x⟩ := a
    by_cases hk : k' = w
    · subst hk
      have h' : ¬ k' = k := fun e => h e.symm
      simp [mapPut, mapGet, h']
    · by_cases hk' : k' = k
      · subst hk'
        simp [mapPut, mapGet, hk]
      · simp [mapPut, mapGet, hk, hk', ih]

theorem keys_mapPut (m : List (Watcher × WatcherState)) (w : Watcher) (v x : WatcherState)
    (h : mapGet m w = some x) : (mapPut m w v).map Prod.fst = m.map Prod.fst := by
  induction m with
  | nil => simp [mapGet] at h
  | cons a m ih =>
    obtain ⟨k, y⟩ := a
    by_cases hk : k = w
    · simp [mapPut, hk]
    · simp only [mapGet, hk, if_false] at h
      simp [mapPut, hk, ih h]

theorem mapPut_of_not_mem (m : List (Watcher × WatcherState)) (w : Watcher) (v : WatcherState)
    (h : w ∉ m.map Prod.fst) : mapPut m w v = m ++ [(w, v)] := by
  induction m with
  | nil => simp [mapPut]
  | cons a m ih =>
    obtain ⟨k, y⟩ := a
    simp only [List.map_cons, List.mem_cons, not_or] at h
    have hk : ¬ k = w := fun e => h.1 e.symm
    simp [mapPut, hk, ih h.2]

theorem mapGet_isSome_of_mem (m : List (Watcher × WatcherState)) (w : Watcher)
    (h : w ∈ m.map Prod.fst) : ∃ x, mapGet m w = some x := by
  induction m with
  | nil => simp at h
  | cons a m ih =>
    obtain ⟨k, y⟩ := a
    by_cases hk : k = w
    · exact ⟨y, by simp [mapGet, hk]⟩
    · simp only [List.map_cons, List.mem_cons] at h
      rcases h with h | h
      · exact absurd h.symm hk
      · obtain ⟨x, hx⟩ := ih h
        exact ⟨x, by simp [mapGet, hk, hx]⟩

theorem mapGet_of_mem_nodup (m : List (Watcher × WatcherState)) (k : Watcher) (v : WatcherState)
    (hnd : (m.map Prod.fst).Nodup) (h : (k, v) ∈ m) : mapGet m k = some v := by
  induction m with
  | nil => simp at h
  | cons a m ih =>
    obtain ⟨k', y⟩ := a
    simp only [List.map_cons, List.nodup_cons] at hnd
    simp only [List.mem_cons, Prod.mk.injEq] at h
    rcases h with h | h
    · simp [mapGet, h.1, h.2]
    · have hk : ¬ k' = k := by
        intro e
        apply hnd.1
        rw [e]
        exact List.mem_map_of_mem Prod.fst h
      simp [mapGet, hk, ih hnd.2 h]

theorem mem_of_mapGet (m : List (Watcher × WatcherState)) (k : Watcher) (v : WatcherState)
    (h : mapGet m k = some v) : (k, v) ∈ m := by
  induction m with
  | nil => simp [mapGet] at h
  | cons a m ih =>
    obtain ⟨k', y⟩ := a
    by_cases hk : k' = k
    · simp only [mapGet, hk, if_true, Option.some.injEq] at h
      simp [hk, h]
    · simp only [mapGet, hk, if_false] at h
      exact List.mem_cons_of_mem _ (ih h)

theorem countBad_cons (a : Watcher × WatcherState) (m : List (Watcher × WatcherState)) :
    countBad (a :: m) = countBad m + (if a.2.good then 0 else 1) := by
  unfold countBad
  rw [List.countP_cons]
  cases a.2.good <;> simp

theorem countBad_mapPut (m : List (Watcher × WatcherState)) (w : Watcher) (v x : WatcherState)
    (h : mapGet m w = some x) :
    (countBad (mapPut m w v) : Int) + (if x.good then 0 else 1)
      = countBad m + (if v.good then 0 else 1) := by
  induction m with
  | nil => simp [mapGet] at h
  | cons a m ih =>
    obtain ⟨k, y⟩ := a
    by_cases hk : k = w
    · simp only [mapGet, hk, if_true, Option.some.injEq] at h
      subst h
      simp only [mapPut, hk, if_true, countBad_cons]
      push_cast
      ring
    · simp only [mapGet, hk, if_false] at h
      have := ih h
      simp only [mapPut, hk, if_false, countBad_cons]
      push_cast
      linarith

theorem all_good_of_countBad_zero (m : List (Watcher × WatcherState)) (h : countBad m = 0) :
    ∀ x ∈ m, x.2.good = true := by
  intro x hx
  unfold countBad at h
  rw [List.countP_eq_zero] at h
  simpa using h x hx

theorem countBad_zero_of_all_good (m : List (Watcher × WatcherState))
    (h : ∀ x ∈ m, x.2.good = true) : countBad m = 0 := by
  unfold countBad
  rw [List.countP_eq_zero]
  intro x hx
  simp [h x hx]

/-! ### Lemmas on the past-due loop -/

theorem scan_fst (now : Int) (m : List (Watcher × WatcherState)) (f : Int) :
    (scan now m f).1 = m.map (markStale now) := by
  induction m generalizing f with
  | nil => rfl
  | cons a m ih =>
    obtain ⟨k, y⟩ := a
    by_cases h : (y.good && decide (y.due < now)) = true
    · simp [scan, markStale, h, ih]
    · simp [scan, markStale, h, ih]

theorem scan_snd (now : Int) (m : List (Watcher × WatcherState)) (f : Int) :
    (scan now m f).2 = f + (m.countP (isStale now) : Nat) := by
  induction m generalizing f with
  | nil => simp [scan]
  | cons a m ih =>
    obtain ⟨k, y⟩ := a
    by_cases h : (y.good && decide (y.due < now)) = true
    · simp only [scan, h, if_true, ih, List.countP_cons, isStale]
      push_cast
      ring
    · simp only [scan, h, if_false, ih, List.countP_cons, isStale]
      simp

theorem markStale_fst (now : Int) (e : Watcher × WatcherState) :
    (markStale now e).1 = e.1 := by
  unfold markStale
  split <;> rfl

theorem markStale_of_stale (now : Int) (e : Watcher × WatcherState)
    (h : isStale now e = true) : markStale now e = (e.1, { e.2 with good := false }) := by
  unfold isStale at h
  unfold markStale
  rw [if_pos h]

theorem markStale_of_not_stale (now : Int) (e : Watcher × WatcherState)
    (h : isStale now e = false) : markStale now e = e := by
  unfold isStale at h
  unfold markStale
  rw [if_neg (by simp [h])]

theorem good_of_stale (now : Int) (e : Watcher × WatcherState)
    (h : isStale now e = true) : e.2.good = true ∧ e.2.due < now := by
  unfold isStale at h
  simpa using h

theorem keys_markStale (now : Int) (m : List (Watcher × WatcherState)) :
    (m.map (markStale now)).map Prod.fst = m.map Prod.fst := by
  induction m with
  | nil => rfl
  | cons a m ih => simp only [List.map_cons, ih, markStale_fst]

theorem countBad_markStale (now : Int) (m : List (Watcher × WatcherState)) :
    countBad (m.map (markStale now)) = countBad m + m.countP (isStale now) := by
  induction m with
  | nil => rfl
  | cons a m ih =>
    rw [List.map_cons, countBad_cons, countBad_cons, List.countP_cons, ih]
    cases h : isStale now a
    · rw [markStale_of_not_stale now a h]
      simp
      omega
    · rw [markStale_of_stale now a h]
      have hg := (good_of_stale now a h).1
      simp [hg]
      omega

theorem mapGet_markStale (now : Int) (m : List (Watcher × WatcherState)) (w : Watcher) :
    mapGet (m.map (markStale now)) w
      = (mapGet m w).map (fun st => (markStale now (w, st)).2) := by
  induction m with
  | nil => rfl
  | cons a m ih =>
    obtain ⟨k, y⟩ := a
    rw [List.map_cons]
    have hfst : (markStale now (k, y)).1 = k := markStale_fst now (k, y)
    have hsplit : markStale now (k, y) = (k, (markStale now (k, y)).2) :=
      Prod.ext hfst rfl
    rw [hsplit]
    by_cases hk : k = w
    · subst hk
      simp [mapGet]
    · simp only [mapGet, hk, if_false]
      exact ih

theorem map_markStale_of_none (now : Int) (m : List (Watcher × WatcherState))
    (h : m.countP (isStale now) = 0) : m.map (markStale now) = m := by
  rw [List.countP_eq_zero] at h
  induction m with
  | nil => rfl
  | cons a m ih =>
    have ha : isStale now a = false := by
      have := h a (List.mem_cons_self a m)
      simpa using this
    rw [List.map_cons, markStale_of_not_stale now a ha,
      ih (fun x hx => h x (List.mem_cons_of_mem a hx))]

/-! ### Lemmas on one iteration of the loop of `run` -/

theorem step_alive_eq (s : AggState) (w : Watcher) (now : Int) (st : WatcherState)
    (h : mapGet s.watcherStates w = some st) :
    step s (.alive w now) = some
      ({ watcherStates := mapPut s.watcherStates w { due := now + grace w, good := true },
         failing := if st.good then s.failing else s.failing - 1 },
       !st.good && decide (s.failing - 1 = 0)) := by
  unfold step
  simp only [h]
  cases hg : st.good <;> simp

theorem step_alive_none (s : AggState) (w : Watcher) (now : Int)
    (h : mapGet s.watcherStates w = none) : step s (.alive w now) = none := by
  unfold step
  simp only [h]

theorem step_tick_eq (s : AggState) (now : Int) :
    step s (.tick now) = some
      (if s.failing = 0 then
        ({ watcherStates := s.watcherStates.map (markStale now),
           failing := (s.watcherStates.countP (isStale now) : Nat) },
         decide (((s.watcherStates.countP (isStale now) : Nat) : Int) = 0))
       else (s, false)) := by
  unfold step
  by_cases h : s.failing = 0
  · simp only [h, if_true, scan_fst, scan_snd, zero_add]
  · simp only [h, if_false]

theorem step_keys (s s' : AggState) (e : Event) (fed : Bool) (h : step s e = some (s', fed)) :
    s'.watcherStates.map Prod.fst = s.watcherStates.map Prod.fst := by
  cases e with
  | alive w now =>
    cases hg : mapGet s.watcherStates w with
    | none => rw [step_alive_none s w now hg] at h; cases h
    | some st =>
      rw [step_alive_eq s w now st hg] at h
      cases h
      exact keys_mapPut _ _ _ st hg
  | tick now =>
    rw [step_tick_eq] at h
    by_cases hf : s.failing = 0
    · simp only [hf, if_true, Option.some.injEq, Prod.mk.injEq] at h
      rw [← h.1]
      exact keys_markStale now _
    · simp only [hf, if_false, Option.some.injEq, Prod.mk.injEq] at h
      rw [← h.1]

theorem step_inv (s s' : AggState) (e : Event) (fed : Bool) (hinv : Inv s)
    (h : step s e = some (s', fed)) : Inv s' := by
  refine ⟨?_, ?_⟩
  · rw [step_keys s s' e fed h]; exact hinv.1
  · cases e with
    | alive w now =>
      cases hg : mapGet s.watcherStates w with
      | none => rw [step_alive_none s w now hg] at h; cases h
      | some st =>
        rw [step_alive_eq s w now st hg] at h
        cases h
        have hc := countBad_mapPut s.watcherStates w { due := now + grace w, good := true } st hg
        have hf := hinv.2
        simp only at hc ⊢
        cases hgood : st.good
        · simp only [hgood] at hc ⊢
          simp at hc ⊢
          omega
        · simp only [hgood] at hc ⊢
          simp at hc ⊢
          omega
    | tick now =>
      rw [step_tick_eq] at h
      by_cases hf : s.failing = 0
      · simp only [hf, if_true, Option.some.injEq, Prod.mk.injEq] at h
        rw [← h.1]
        have hz : countBad s.watcherStates = 0 := by
          have := hinv.2
          omega
        simp only [countBad_markStale, hz, zero_add]
      · simp only [hf, if_false, Option.some.injEq, Prod.mk.injEq] at h
        rw [← h.1]
        exact hinv.2

theorem step_fed_failing (s s' : AggState) (e : Event) (h : step s e = some (s', true)) :
    s'.failing = 0 := by
  cases e with
  | alive w now =>
    cases hg : mapGet s.watcherStates w with
    | none => rw [step_alive_none s w now hg] at h; cases h
    | some st =>
      rw [step_alive_eq s w now st hg] at h
      simp only [Option.some.injEq, Prod.mk.injEq, Bool.and_eq_true, Bool.not_eq_true',
        decide_eq_true_eq] at h
      obtain ⟨hs, hgood, hz⟩ := h
      rw [← hs]
      simp [hgood, hz]
  | tick now =>
    rw [step_tick_eq] at h
    by_cases hf : s.failing = 0
    · simp only [hf, if_true, Option.some.injEq, Prod.mk.injEq, decide_eq_true_eq] at h
      rw [← h.1]
      exact h.2
    · simp only [hf, if_false, Option.some.injEq, Prod.mk.injEq] at h
      exact absurd h.2 (by simp)

/-! ### Lemmas on runs of the loop -/

theorem run_cons_some (s r : AggState) (e : Event) (es : List Event) (fed : Bool)
    (h : step s e = some (r, fed)) : run s (e :: es) = run r es := by
  simp only [run, h]

theorem run_cons_inv (s s' : AggState) (e : Event) (es : List Event)
    (h : run s (e :: es) = some s') :
    ∃ r fed, step s e = some (r, fed) ∧ run r es = some s' := by
  cases hs : step s e with
  | none => simp [run, hs] at h
  | some p =>
    obtain ⟨r, fed⟩ := p
    rw [run_cons_some s r e es fed hs] at h
    exact ⟨r, fed, rfl, h⟩

theorem run_inv (es : List Event) (s s' : AggState) (hinv : Inv s)
    (h : run s es = some s') : Inv s' := by
  induction es generalizing s with
  | nil =>
    simp only [run, Option.some.injEq] at h
    rw [← h]; exact hinv
  | cons e es ih =>
    obtain ⟨r, fed, hstep, hrun⟩ := run_cons_inv s s' e es h
    exact ih r (step_inv s r e fed hinv hstep) hrun

theorem run_keys (es : List Event) (s s' : AggState) (h : run s es = some s') :
    s'.watcherStates.map Prod.fst = s.watcherStates.map Prod.fst := by
  induction es generalizing s with
  | nil =>
    simp only [run, Option.some.injEq] at h
    rw [← h]
  | cons e es ih =>
    obtain ⟨r, fed, hstep, hrun⟩ := run_cons_inv s s' e es h
    rw [ih r hrun, step_keys s r e fed hstep]

theorem step_some (s : AggState) (e : Event)
    (hreg : ∀ w now, e = .alive w now → w ∈ s.watcherStates.map Prod.fst) :
    ∃ r, step s e = some r := by
  cases e with
  | alive w now =>
    obtain ⟨st, hst⟩ := mapGet_isSome_of_mem s.watcherStates w (hreg w now rfl)
    exact ⟨_, step_alive_eq s w now st hst⟩
  | tick now => exact ⟨_, step_tick_eq s now⟩

theorem run_some (es : List Event) (s : AggState)
    (hreg : ∀ w now, Event.alive w now ∈ es → w ∈ s.watcherStates.map Prod.fst) :
    ∃ s', run s es = some s' := by
  induction es generalizing s with
  | nil => exact ⟨s, rfl⟩
  | cons e es ih =>
    obtain ⟨⟨r, fed⟩, hr⟩ := step_some s e
      (fun w now he => hreg w now (by rw [he]; exact List.mem_cons_self _ _))
    rw [run_cons_some s r e es fed hr]
    apply ih
    intro w now hmem
    rw [step_keys s r e fed hr]
    exact hreg w now (List.mem_cons_of_mem _ hmem)

/-! ### Lemmas on the start-up loop -/

theorem initStates_eq (ws : List (Watcher × Int)) (m : List (Watcher × WatcherState))
    (hnd : (m.map Prod.fst ++ ws.map Prod.fst).Nodup) :
    initStates ws m = m ++ ws.map (fun p => (p.1, { due := p.2, good := false })) := by
  induction ws generalizing m with
  | nil => simp [initStates]
  | cons a ws ih =>
    obtain ⟨w, t⟩ := a
    have hw : w ∉ m.map Prod.fst := by
      intro hmem
      rw [List.nodup_append] at hnd
      exact hnd.2.2 hmem (by simp)
    simp only [initStates]
    rw [mapPut_of_not_mem m w _ hw, ih]
    · simp
    · simpa using hnd

theorem initState_keys (ws : List (Watcher × Int)) (hnd : (ws.map Prod.fst).Nodup) :
    (initState ws).watcherStates.map Prod.fst = ws.map Prod.fst := by
  unfold initState
  simp only
  rw [initStates_eq ws [] (by simpa using hnd)]
  simp [Function.comp_def]

theorem countBad_init (ws : List (Watcher × Int)) :
    countBad (ws.map (fun p => ((p.1, { due := p.2, good := false }) : Watcher × WatcherState)))
      = ws.length := by
  induction ws with
  | nil => rfl
  | cons a ws ih => rw [List.map_cons, countBad_cons, ih]; simp

theorem initState_inv (ws : List (Watcher × Int)) (hnd : (ws.map Prod.fst).Nodup) :
    Inv (initState ws) := by
  refine ⟨?_, ?_⟩
  · rw [initState_keys ws hnd]; exact hnd
  · unfold initState
    simp only
    rw [initStates_eq ws [] (by simpa using hnd)]
    simp only [List.nil_append, countBad_init]

/-! ### Lemmas on the due time of one watcher -/

theorem markStale_due (now : Int) (e : Watcher × WatcherState) :
    (markStale now e).2.due = e.2.due := by
  unfold markStale
  split <;> rfl

theorem step_due_of_not_alive (s s' : AggState) (e : Event) (fed : Bool) (w : Watcher)
    (st : WatcherState) (hne : e.isAliveOf w = false) (h : step s e = some (s', fed))
    (hg : mapGet s.watcherStates w = some st) :
    ∃ st', mapGet s'.watcherStates w = some st' ∧ st'.due = st.due := by
  cases e with
  | alive k now =>
    have hk : w ≠ k := by
      intro e
      simp [Event.isAliveOf, e] at hne
    cases hgk : mapGet s.watcherStates k with
    | none => rw [step_alive_none s k now hgk] at h; cases h
    | some stk =>
      rw [step_alive_eq s k now stk hgk] at h
      cases h
      exact ⟨st, by simp only [mapGet_mapPut_other _ k w _ hk, hg], rfl⟩
  | tick now =>
    rw [step_tick_eq] at h
    by_cases hf : s.failing = 0
    · simp only [hf, if_true, Option.some.injEq, Prod.mk.injEq] at h
      rw [← h.1]
      refine ⟨(markStale now (w, st)).2, ?_, markStale_due now (w, st)⟩
      simp only [mapGet_markStale, hg, Option.map_some']
    · simp only [hf, if_false, Option.some.injEq, Prod.mk.injEq] at h
      rw [← h.1]
      exact ⟨st, hg, rfl⟩

theorem run_due_of_not_alive (es : List Event) (s s' : AggState) (w : Watcher)
    (st : WatcherState) (hne : ∀ e ∈ es, e.isAliveOf w = false) (h : run s es = some s')
    (hg : mapGet s.watcherStates w = some st) :
    ∃ st', mapGet s'.watcherStates w = some st' ∧ st'.due = st.due := by
  induction es generalizing s st with
  | nil =>
    simp only [run, Option.some.injEq] at h
    rw [← h]
    exact ⟨st, hg, rfl⟩
  | cons e es ih =>
    obtain ⟨r, fed, hstep, hrun⟩ := run_cons_inv s s' e es h
    obtain ⟨st1, hg1, hd1⟩ :=
      step_due_of_not_alive s r e fed w st (hne e (List.mem_cons_self _ _)) hstep hg
    obtain ⟨st2, hg2, hd2⟩ :=
      ih r st1 (fun x hx => hne x (List.mem_cons_of_mem _ hx)) hrun hg1
    exact ⟨st2, hg2, by rw [hd2, hd1]⟩

theorem step_alive_state (s s' : AggState) (w : Watcher) (now : Int) (fed : Bool)
    (h : step s (.alive w now) = some (s', fed)) :
    mapGet s'.watcherStates w = some { due := now + grace w, good := true } := by
  cases hg : mapGet s.watcherStates w with
  | none => rw [step_alive_none s w now hg] at h; cases h
  | some st =>
    rw [step_alive_eq s w now st hg] at h
    cases h
    exact mapGet_mapPut_same _ _ _

theorem step_flip (s s' : AggState) (e : Event) (fed : Bool) (w : Watcher)
    (st st' : WatcherState) (h : step s e = some (s', fed))
    (hg : mapGet s.watcherStates w = some st) (hgood : st.good = true)
    (hg' : mapGet s'.watcherStates w = some st') (hbad : st'.good = false) :
    ∃ now, e = .tick now ∧ st.due < now := by
  cases e with
  | alive k now =>
    exfalso
    by_cases hk : k = w
    · subst hk
      rw [step_alive_state s s' k now fed h] at hg'
      simp only [Option.some.injEq] at hg'
      rw [← hg'] at hbad
      cases hbad
    · cases hgk : mapGet s.watcherStates k with
      | none => rw [step_alive_none s k now hgk] at h; cases h
      | some stk =>
        rw [step_alive_eq s k now stk hgk] at h
        cases h
        rw [mapGet_mapPut_other _ k w _ (fun e => hk e.symm), hg] at hg'
        simp only [Option.some.injEq] at hg'
        rw [← hg', hgood] at hbad
        cases hbad
  | tick now =>
    refine ⟨now, rfl, ?_⟩
    rw [step_tick_eq] at h
    by_cases hf : s.failing = 0
    · simp only [hf, if_true, Option.some.injEq, Prod.mk.injEq] at h
      rw [← h.1] at hg'
      simp only [mapGet_markStale, hg, Option.map_some', Option.some.injEq] at hg'
      cases hs : isStale now (w, st)
      · rw [markStale_of_not_stale now (w, st) hs] at hg'
        simp only at hg'
        rw [← hg', hgood] at hbad
        cases hbad
      · exact (good_of_stale now (w, st) hs).2
    · simp only [hf, if_false, Option.some.injEq, Prod.mk.injEq] at h
      rw [← h.1, hg] at hg'
      simp only [Option.some.injEq] at hg'
      rw [← hg', hgood] at hbad
      cases hbad

theorem tick_marks_bad (s : AggState) (w : Watcher) (st : WatcherState) (now : Int)
    (hinv : Inv s) (hg : mapGet s.watcherStates w = some st) (hdue : st.due < now)
    (hothers : ∀ x ∈ s.watcherStates, x.1 ≠ w → x.2.good = true) :
    ∃ s' fed st', step s (.tick now) = some (s', fed) ∧
      mapGet s'.watcherStates w = some st' ∧ st'.good = false := by
  rw [step_tick_eq]
  cases hgood : st.good
  · have hns : isStale now (w, st) = false := by simp [isStale, hgood]
    by_cases hf : s.failing = 0
    · refine ⟨_, _, (markStale now (w, st)).2, by rw [if_pos hf], ?_, ?_⟩
      · simp only [mapGet_markStale, hg, Option.map_some']
      · rw [markStale_of_not_stale now (w, st) hns]; exact hgood
    · exact ⟨s, false, st, by rw [if_neg hf], hg, hgood⟩
  · have hall : ∀ x ∈ s.watcherStates, x.2.good = true := by
      intro x hx
      by_cases hk : x.1 = w
      · have hx' : (w, x.2) ∈ s.watcherStates := by rw [← hk]; exact hx
        have := mapGet_of_mem_nodup s.watcherStates w x.2 hinv.1 hx'
        rw [hg] at this
        simp only [Option.some.injEq] at this
        rw [← this]; exact hgood
      · exact hothers x hx hk
    have hf : s.failing = 0 := by
      rw [hinv.2, countBad_zero_of_all_good _ hall]; rfl
    have hs : isStale now (w, st) = true := by simp [isStale, hgood, hdue]
    refine ⟨_, _, (markStale now (w, st)).2, by rw [if_pos hf], ?_, ?_⟩
    · simp only [mapGet_markStale, hg, Option.map_some']
    · rw [markStale_of_stale now (w, st) hs]

/-! ### Lemmas on duration arithmetic -/

theorem wrap64_of_range (x : Int) (hlo : -9223372036854775808 ≤ x)
    (hhi : x < 9223372036854775808) : wrap64 x = x := by
  unfold wrap64
  norm_num
  omega

theorem PeriodD_of_small (c : CommonWatcher) (hlo : 0 < c.Period)
    (hhi : c.Period ≤ 4611686018) : c.PeriodD = Second * c.Period := by
  unfold CommonWatcher.PeriodD Second
  rw [wrap64_of_range _ (by omega) (by omega)]
  simp only
  rw [if_neg (by omega)]

theorem grace_of_small (w : Watcher) (hlo : 0 < w.Config.Period)
    (hhi : w.Config.Period ≤ 4611686018) : grace w = 2 * (Second * w.Config.Period) := by
  unfold grace
  rw [PeriodD_of_small _ hlo hhi]
  unfold Second
  rw [wrap64_of_range _ (by omega) (by omega)]
  ring

theorem configureWatchers_nodup (config : Watchers) : (configureWatchers config).Nodup := by
  unfold configureWatchers
  cases config.Temperature <;> cases config.Url <;> simp

/-! ### Lemmas on the poller -/

theorem backoffAfter_append (period b : Int) (xs ys : List (Option String)) :
    backoffAfter period b (xs ++ ys) = backoffAfter period (backoffAfter period b xs) ys := by
  induction xs generalizing b with
  | nil => rfl
  | cons x xs ih =>
    rw [List.cons_append]
    simp only [backoffAfter]
    exact ih _

theorem runWatcherFrom_append (period b : Int) (xs ys : List (Option String)) :
    runWatcherFrom period b (xs ++ ys)
      = runWatcherFrom period b xs ++ runWatcherFrom period (backoffAfter period b xs) ys := by
  induction xs generalizing b with
  | nil => rfl
  | cons x xs ih =>
    rw [List.cons_append]
    simp only [runWatcherFrom, backoffAfter, List.cons_append]
    rw [ih]

theorem backoffAfter_reset (period : Int) (pre : List (Option String))
    (hpre : pre = [] ∨ ∃ p, pre = p ++ [none]) : backoffAfter period Second pre = Second := by
  rcases hpre with h | ⟨p, h⟩
  · rw [h]; rfl
  · rw [h, backoffAfter_append]; rfl

theorem runWatcherStep_fail (period b : Int) (msg : String) (hpos : 0 < b) (hle : b ≤ period)
    (hexact : period * 2 < 9223372036854775808) :
    runWatcherStep period b (some msg)
      = { alive := false, slept := b, backoff := min (b * 2) period } := by
  unfold runWatcherStep
  simp only
  rw [wrap64_of_range _ (by omega) (by omega)]
  by_cases h : b * 2 > period
  · rw [if_pos h, min_eq_right (le_of_lt h)]
  · rw [if_neg h, min_eq_left (not_lt.mp h)]

theorem backoff_doubling (period : Int) (hmin : Second ≤ period)
    (hexact : period * 2 < 9223372036854775808) (fails : List (Option String))
    (hfails : ∀ e ∈ fails, e.isSome = true) (k : Nat) :
    backoffAfter period (min (Second * 2 ^ k) period) fails
      = min (Second * 2 ^ (k + fails.length)) period := by
  induction fails generalizing k with
  | nil => rfl
  | cons e fails ih =>
    have hS : (0 : Int) < Second := by unfold Second; omega
    have hX : 0 < Second * 2 ^ k := mul_pos hS (pow_pos (by omega) k)
    obtain ⟨msg, rfl⟩ := Option.isSome_iff_exists.mp (hfails e (List.mem_cons_self _ _))
    have hb : 0 < min (Second * 2 ^ k) period := lt_min hX (by omega)
    rw [backoffAfter, runWatcherStep_fail period _ msg hb (min_le_right _ _) hexact]
    have hstep : min (min (Second * 2 ^ k) period * 2) period
        = min (Second * 2 ^ (k + 1)) period := by
      have hp : Second * 2 ^ (k + 1) = Second * 2 ^ k * 2 := by ring
      rw [hp]
      rcases le_total (Second * 2 ^ k) period with h | h
      · rw [min_eq_left h]
      · rw [min_eq_right h, min_eq_right (by omega), min_eq_right (by omega)]
    simp only
    rw [hstep, ih (fun x hx => hfails x (List.mem_cons_of_mem _ hx)) (k + 1)]
    congr 2
    simp only [List.length_cons]
    ring_nf

/-! ### Lemmas on the register protocol -/

theorem SetWake_of_valid (bus : I2C) (v : Int) (heven : v % 2 = 0) (hmax : v ≤ 131070) :
    SetWake bus v
      = bus.WriteBytes [reg_wake, toByte ((v >>> (1 : Nat)) % 256), toByte ((v >>> (1 : Nat)) >>> (8 : Nat))] := by
  unfold SetWake
  rw [if_neg (by omega), if_neg (by omega)]

theorem shr1 (v : Int) : v >>> (1 : Nat) = v / 2 := by
  rw [Int.shiftRight_eq_div_pow]; norm_num

theorem shr8 (v : Int) : v >>> (8 : Nat) = v / 256 := by
  rw [Int.shiftRight_eq_div_pow]; norm_num

/-! ### Claims on the register protocol -/

/-- C7: for every even `v` with `0 ≤ v ≤ 131070` and a working transport,
`SetWake v` returns no error, puts exactly the buffer
`[reg_wake, low byte, high byte]` on the bus, leaves the low byte of `v / 2`
in register 2 and its high byte in register 3, and `GetWake` afterwards
decodes exactly `v` without error. -/
theorem wake_roundtrip (bus : I2C) (v : Int) (hup : bus.up = true)
    (heven : v % 2 = 0) (hlo : 0 ≤ v) (hhi : v ≤ 131070) :
    (SetWake bus v).1 = none ∧
    (SetWake bus v).2.written
      = bus.written ++ [[reg_wake, ((v / 2) % 256).toNat, ((v / 2) / 256).toNat]] ∧
    (SetWake bus v).2.regs 2 = ((v / 2) % 256).toNat ∧
    (SetWake bus v).2.regs 3 = ((v / 2) / 256).toNat ∧
    GetWake (SetWake bus v).2 = (v, none) := by
  have hq : (v / 2) / 256 % 256 = (v / 2) / 256 := by omega
  have hm : (v / 2) % 256 % 256 = (v / 2) % 256 := by omega
  rw [SetWake_of_valid bus v heven hhi]
  simp only [I2C.WriteBytes, hup, if_true, storeRegs, reg_wake, toByte, shr1, shr8, hq, hm,
    GetWake, I2C.ReadRegU16LE]
  refine ⟨trivial, trivial, ?_, ?_, ?_⟩
  · simp
  · simp
  · simp only [Prod.mk.injEq, and_true]
    norm_num
    omega

/-- Witness of `wake_roundtrip` at `v = 600`. -/
theorem wake_roundtrip_witness :
    (SetWake freshBus 600).1 = none ∧
    (SetWake freshBus 600).2.written
      = freshBus.written ++ [[reg_wake, (((600 : Int) / 2) % 256).toNat,
          (((600 : Int) / 2) / 256).toNat]] ∧
    (SetWake freshBus 600).2.regs 2 = (((600 : Int) / 2) % 256).toNat ∧
    (SetWake freshBus 600).2.regs 3 = (((600 : Int) / 2) / 256).toNat ∧
    GetWake (SetWake freshBus 600).2 = (600, none) :=
  wake_roundtrip freshBus 600 rfl (by decide) (by decide) (by decide)

/-- C8: for every `v` that is odd or greater than 131070, `SetWake v` returns
an error and leaves the bus untouched: no buffer is written and no register
changes. -/
theorem SetWake_rejects (bus : I2C) (v : Int) (h : v % 2 = 1 ∨ 131070 < v) :
    (SetWake bus v).1.isSome = true ∧ (SetWake bus v).2 = bus := by
  unfold SetWake
  by_cases hodd : v % 2 ≠ 0
  · rw [if_pos hodd]; exact ⟨rfl, rfl⟩
  · have hbig : v > 131070 := by omega
    rw [if_neg hodd, if_pos hbig]; exact ⟨rfl, rfl⟩

/-- Witness of `SetWake_rejects` at the odd value `v = 7`. -/
theorem SetWake_rejects_witness :
    (SetWake freshBus 7).1.isSome = true ∧ (SetWake freshBus 7).2 = freshBus :=
  SetWake_rejects freshBus 7 (Or.inl (by decide))

/-- C9 (evaluation of the code at the failing input): `SetWake (-2)` passes
validation, returns no error and writes `0xff, 0xff` to the wake registers,
so that `GetWake` decodes 131070 seconds instead of the requested `-2`. -/
theorem SetWake_negative_even_arms_131070 :
    (SetWake freshBus (-2)).1 = none ∧
    (SetWake freshBus (-2)).2.written = [[2, 255, 255]] ∧
    GetWake (SetWake freshBus (-2)).2 = (131070, none) := by
  refine ⟨?_, ?_, ?_⟩ <;> decide


/-! ### Claims on the aggregator loop -/

/-- C1: `run` builds a state in which every watcher has `good == false` and
`failing` is the number of watchers; after any finite sequence of liveness
events (of registered watchers) and clock ticks the loop has not panicked, the
map still holds exactly the registered watchers, and `failing` equals the
number of them whose `WatcherState` has `good == false`. -/
theorem failing_counts_bad_watchers (ws : List (Watcher × Int))
    (hnd : (ws.map Prod.fst).Nodup) (es : List Event)
    (hreg : ∀ w now, Event.alive w now ∈ es → w ∈ ws.map Prod.fst) :
    (initState ws).failing = ws.length ∧
    (∀ x ∈ (initState ws).watcherStates, x.2.good = false) ∧
    ∃ s, run (initState ws) es = some s ∧
      s.watcherStates.map Prod.fst = ws.map Prod.fst ∧
      s.failing = countBad s.watcherStates := by
  refine ⟨rfl, ?_, ?_⟩
  · intro x hx
    unfold initState at hx
    simp only at hx
    rw [initStates_eq ws [] (by simpa using hnd)] at hx
    simp only [List.nil_append, List.mem_map] at hx
    obtain ⟨p, -, rfl⟩ := hx
    rfl
  · obtain ⟨s, hs⟩ := run_some es (initState ws)
      (fun w now h => by rw [initState_keys ws hnd]; exact hreg w now h)
    refine ⟨s, hs, ?_, (run_inv es _ s (initState_inv ws hnd) hs).2⟩
    rw [run_keys es _ s hs, initState_keys ws hnd]

/-- Witness of `failing_counts_bad_watchers` on the two sample watchers. -/
theorem failing_counts_bad_watchers_witness :
    (initState sampleWatchers).failing = sampleWatchers.length ∧
    (∀ x ∈ (initState sampleWatchers).watcherStates, x.2.good = false) ∧
    ∃ s, run (initState sampleWatchers) sampleEvents = some s ∧
      s.watcherStates.map Prod.fst = sampleWatchers.map Prod.fst ∧
      s.failing = countBad s.watcherStates :=
  failing_counts_bad_watchers sampleWatchers (by decide) sampleEvents (by
    intro w now h
    simp only [sampleEvents, List.mem_cons, Event.alive.injEq, List.mem_singleton,
      List.not_mem_nil, or_false, reduceCtorEq] at h
    rcases h with h | h
    · rw [h.1]; decide
    · rw [h.1]; decide)

/-- C2: in every state reached from the initial state of `run`, an iteration
of the loop that calls `ping` (on the tick path or on the alive path) ends in
a state with `failing == 0`, in which every watcher is marked good. -/
theorem ping_only_when_none_failing (ws : List (Watcher × Int))
    (hnd : (ws.map Prod.fst).Nodup) (es : List Event) (s s' : AggState) (e : Event)
    (hrun : run (initState ws) es = some s) (hstep : step s e = some (s', true)) :
    s'.failing = 0 ∧ countBad s'.watcherStates = 0 ∧
      ∀ x ∈ s'.watcherStates, x.2.good = true := by
  have hinv : Inv s' :=
    step_inv s s' e true (run_inv es _ s (initState_inv ws hnd) hrun) hstep
  have hf := step_fed_failing s s' e hstep
  have hc : countBad s'.watcherStates = 0 := by
    have := hinv.2
    omega
  exact ⟨hf, hc, all_good_of_countBad_zero _ hc⟩

/-- Witness of `ping_only_when_none_failing`: the second sample watcher
reports after the first. -/
theorem ping_only_when_none_failing_witness :
    sampleAllGood.failing = 0 ∧ countBad sampleAllGood.watcherStates = 0 ∧
      ∀ x ∈ sampleAllGood.watcherStates, x.2.good = true :=
  ping_only_when_none_failing sampleWatchers (by decide) [.alive watcherA 0] sampleOnlyA
    sampleAllGood (.alive watcherB 0) (by decide) (by decide)

/-- C3 (counterexample): with non-decreasing time stamps, both sample watchers
report at 0 s, the tick at 25 s marks A stale, the tick at 50 s skips the scan
because `failing` is 1, and when A reports at 100 s the loop calls `ping`
although B has been past due since 40 s. -/
theorem fast_path_feeds_past_due :
    (sampleWatchers.map Prod.fst).Nodup ∧
    List.Pairwise (fun a b => a ≤ b)
      ((sampleEvents ++ [Event.alive watcherA 100000000000]).map Event.time) ∧
    run (initState sampleWatchers) sampleEvents = some sampleStaleA ∧
    step sampleStaleA (.alive watcherA 100000000000) = some (sampleFedStale, true) ∧
    mapGet sampleFedStale.watcherStates watcherB = some { due := 40000000000, good := true } ∧
    (40000000000 : Int) < 100000000000 := by
  refine ⟨?_, ?_, ?_, ?_, ?_, ?_⟩ <;> decide

/-- C3 (amended): in every state reached from the initial state of `run`, an
iteration that calls `ping` on a tick with time `now` ends with every watcher
marked good and no watcher past due (`now ≤ due`); an iteration that calls
`ping` on a liveness event of `w` read at time `t` ends with every watcher
marked good and with `w` due at `t + grace w`. -/
theorem feed_freshness (ws : List (Watcher × Int))
    (hnd : (ws.map Prod.fst).Nodup) (es : List Event) (s s' : AggState) (e : Event)
    (hrun : run (initState ws) es = some s) (hstep : step s e = some (s', true)) :
    (∀ now, e = .tick now → ∀ x ∈ s'.watcherStates, x.2.good = true ∧ now ≤ x.2.due) ∧
    (∀ w t, e = .alive w t →
      (∀ x ∈ s'.watcherStates, x.2.good = true) ∧
      mapGet s'.watcherStates w = some { due := t + grace w, good := true }) := by
  have hinv0 : Inv s := run_inv es _ s (initState_inv ws hnd) hrun
  have hinv : Inv s' := step_inv s s' e true hinv0 hstep
  have hf := step_fed_failing s s' e hstep
  have hc : countBad s'.watcherStates = 0 := by
    have := hinv.2
    omega
  have hall := all_good_of_countBad_zero _ hc
  refine ⟨?_, ?_⟩
  · intro now he x hx
    refine ⟨hall x hx, ?_⟩
    subst he
    rw [step_tick_eq] at hstep
    by_cases hz : s.failing = 0
    · simp only [hz, if_true, Option.some.injEq, Prod.mk.injEq, decide_eq_true_eq] at hstep
      obtain ⟨hs, hcount⟩ := hstep
      have hnone : s.watcherStates.countP (isStale now) = 0 := by omega
      rw [map_markStale_of_none now _ hnone] at hs
      rw [← hs] at hx hall
      simp only at hx hall
      rw [List.countP_eq_zero] at hnone
      have hns := hnone x hx
      have hg := hall x hx
      simp only [isStale, hg, Bool.true_and, decide_eq_true_eq] at hns
      omega
    · simp only [hz, if_false, Option.some.injEq, Prod.mk.injEq] at hstep
      exact absurd hstep.2 (by simp)
  · intro w t he
    subst he
    exact ⟨hall, step_alive_state s s' w t true hstep⟩

/-- Witness of `feed_freshness`: the second sample watcher reports after the
first. -/
theorem feed_freshness_witness :
    (∀ now, Event.alive watcherB 0 = .tick now →
      ∀ x ∈ sampleAllGood.watcherStates, x.2.good = true ∧ now ≤ x.2.due) ∧
    (∀ w t, Event.alive watcherB 0 = .alive w t →
      (∀ x ∈ sampleAllGood.watcherStates, x.2.good = true) ∧
      mapGet sampleAllGood.watcherStates w = some { due := t + grace w, good := true }) :=
  feed_freshness sampleWatchers (by decide) [.alive watcherA 0] sampleOnlyA
    sampleAllGood (.alive watcherB 0) (by decide) (by decide)

/-- C4 (counterexample): watcher A reports at 0 s while watcher B has never
reported; the tick interval is 7.5 s and the grace of A is 20 s, yet the tick
at 27.5 s leaves A marked good, because `failing` is 1 and the tick does not
scan. -/
theorem tick_skips_scan_while_failing :
    step (initState sampleWatchers) (.alive watcherA 0) = some (sampleOnlyA, false) ∧
    grace watcherA = 20000000000 ∧
    tickInterval sampleWatchdog = 7500000000 ∧
    step sampleOnlyA (.tick 27500000000) = some (sampleOnlyA, false) ∧
    mapGet sampleOnlyA.watcherStates watcherA = some { due := 20000000000, good := true } := by
  refine ⟨?_, ?_, ?_, ?_, ?_⟩ <;> decide

/-- C4 (amended): from a state reached from the initial state of `run`, let
the liveness event of `w` be processed at time `T` and let no further liveness
event of `w` arrive. A tick with time at or after
`T + grace w + tickInterval`, processed while every other watcher is marked
good, leaves `w` with `good == false`. -/
theorem stale_marked_when_others_good (ws : List (Watcher × Int))
    (hnd : (ws.map Prod.fst).Nodup) (es0 es : List Event) (s0 s1 s2 : AggState)
    (w : Watcher) (T now : Int) (fed0 : Bool) (watchdog : Watchdog)
    (hrun0 : run (initState ws) es0 = some s0)
    (h0 : step s0 (.alive w T) = some (s1, fed0))
    (hes : ∀ e ∈ es, e.isAliveOf w = false)
    (h1 : run s1 es = some s2)
    (htick : 0 < tickInterval watchdog)
    (hnow : T + grace w + tickInterval watchdog ≤ now)
    (hothers : ∀ x ∈ s2.watcherStates, x.1 ≠ w → x.2.good = true) :
    ∃ s3 fed st3, step s2 (.tick now) = some (s3, fed) ∧
      mapGet s3.watcherStates w = some st3 ∧ st3.good = false := by
  have hinv1 : Inv s1 :=
    step_inv s0 s1 _ fed0 (run_inv es0 _ s0 (initState_inv ws hnd) hrun0) h0
  have hinv2 : Inv s2 := run_inv es s1 s2 hinv1 h1
  obtain ⟨st2, hg2, hd2⟩ :=
    run_due_of_not_alive es s1 s2 w _ hes h1 (step_alive_state s0 s1 w T fed0 h0)
  simp only at hd2
  exact tick_marks_bad s2 w st2 now hinv2 hg2 (by omega) hothers

/-- Witness of `stale_marked_when_others_good`: B reports, then A reports at
0 s, and the tick at 27.5 s finds B good and A past due. -/
theorem stale_marked_when_others_good_witness :
    ∃ s3 fed st3, step sampleAllGood (.tick 27500000000) = some (s3, fed) ∧
      mapGet s3.watcherStates watcherA = some st3 ∧ st3.good = false :=
  stale_marked_when_others_good sampleWatchers (by decide) [.alive watcherB 0] []
    sampleOnlyB sampleAllGood sampleAllGood watcherA 0 27500000000 true sampleWatchdog
    (by decide) (by decide) (by simp) (by decide) (by decide) (by decide) (by decide)

/-- C5: let the liveness event of `w` be processed at time `T` and let no
further liveness event of `w` arrive. Then the due time of `w` stays
`T + grace w`, and an iteration of the loop that takes `w` from good to bad is
the handling of a tick whose time is strictly later than `T + grace w`: no
tick at or before the due time, and no liveness event, marks `w` stale. -/
theorem stale_only_by_late_tick (s0 s1 s2 s3 : AggState) (w : Watcher) (T : Int)
    (fed0 fed : Bool) (es : List Event) (e : Event) (st2 st3 : WatcherState)
    (h0 : step s0 (.alive w T) = some (s1, fed0))
    (hes : ∀ x ∈ es, x.isAliveOf w = false)
    (h1 : run s1 es = some s2)
    (h2 : step s2 e = some (s3, fed))
    (hg2 : mapGet s2.watcherStates w = some st2) (hgood : st2.good = true)
    (hg3 : mapGet s3.watcherStates w = some st3) (hbad : st3.good = false) :
    st2.due = T + grace w ∧ ∃ now, e = .tick now ∧ T + grace w < now := by
  obtain ⟨st, hg, hd⟩ :=
    run_due_of_not_alive es s1 s2 w _ hes h1 (step_alive_state s0 s1 w T fed0 h0)
  rw [hg2] at hg
  simp only [Option.some.injEq] at hg
  subst hg
  simp only at hd
  refine ⟨hd, ?_⟩
  obtain ⟨now, he, hlt⟩ := step_flip s2 s3 e fed w st2 st3 h2 hg2 hgood hg3 hbad
  exact ⟨now, he, by omega⟩

/-- Witness of `stale_only_by_late_tick`: A reports at 0 s and is marked stale
by the tick at 25 s, later than its due time of 20 s. -/
theorem stale_only_by_late_tick_witness :
    (20000000000 : Int) = 0 + grace watcherA ∧
      ∃ now, Event.tick 25000000000 = .tick now ∧ 0 + grace watcherA < now :=
  stale_only_by_late_tick sampleOnlyB sampleAllGood sampleAllGood sampleStaleA watcherA 0
    true false [] (.tick 25000000000) { due := 20000000000, good := true }
    { due := 20000000000, good := false }
    (by decide) (by simp) (by decide) (by decide) (by decide) rfl (by decide) rfl

/-! ### Claims on the poller -/

/-- C6: let `period` be the `PeriodD()` of the watcher, at least one second
and with `period * 2` inside `int64`. After `N` consecutive failed checks,
counted from the start of `runWatcher` or from the last successful check, the
variable `backoff` holds `min (Second * 2 ^ N) period`; the next failed check
sends nothing, sleeps for that value and leaves
`min (Second * 2 ^ (N + 1)) period`; and a successful check sends the watcher,
sleeps for `period` and sets `backoff` to one second whatever it was. -/
theorem backoff_law (watcher : Watcher) (hmin : Second ≤ watcher.Config.PeriodD)
    (hexact : watcher.Config.PeriodD * 2 < 9223372036854775808)
    (pre fails : List (Option String)) (hpre : pre = [] ∨ ∃ p, pre = p ++ [none])
    (hfails : ∀ e ∈ fails, e.isSome = true) :
    backoffAfter watcher.Config.PeriodD Second (pre ++ fails)
      = min (Second * 2 ^ fails.length) watcher.Config.PeriodD ∧
    (∀ msg, runWatcher watcher (pre ++ fails ++ [some msg])
      = runWatcher watcher (pre ++ fails) ++
          [{ alive := false,
             slept := min (Second * 2 ^ fails.length) watcher.Config.PeriodD,
             backoff := min (Second * 2 ^ (fails.length + 1)) watcher.Config.PeriodD }]) ∧
    (∀ b, runWatcherStep watcher.Config.PeriodD b none
      = { alive := true, slept := watcher.Config.PeriodD, backoff := Second }) := by
  have hS : (0 : Int) < Second := by unfold Second; omega
  have hstart : min (Second * 2 ^ 0) watcher.Config.PeriodD = Second := by
    rw [pow_zero, mul_one, min_eq_left hmin]
  have hlaw : ∀ fs : List (Option String), (∀ e ∈ fs, e.isSome = true) →
      backoffAfter watcher.Config.PeriodD Second (pre ++ fs)
        = min (Second * 2 ^ fs.length) watcher.Config.PeriodD := by
    intro fs hfs
    rw [backoffAfter_append, backoffAfter_reset _ pre hpre]
    have := backoff_doubling _ hmin hexact fs hfs 0
    rw [hstart, zero_add] at this
    exact this
  refine ⟨hlaw fails hfails, ?_, fun b => rfl⟩
  intro msg
  unfold runWatcher
  rw [runWatcherFrom_append, hlaw fails hfails]
  have hnext := hlaw (fails ++ [some msg]) (by
    intro e he
    rcases List.mem_append.mp he with h | h
    · exact hfails e h
    · rw [List.mem_singleton.mp h]; rfl)
  rw [← List.append_assoc, backoffAfter_append, hlaw fails hfails] at hnext
  simp only [backoffAfter, List.length_append, List.length_singleton] at hnext
  simp only [runWatcherFrom, List.append_cancel_left_eq, List.cons.injEq, and_true]
  have hX : 0 < Second * 2 ^ fails.length := mul_pos hS (pow_pos (by omega) _)
  have hb : 0 < min (Second * 2 ^ fails.length) watcher.Config.PeriodD :=
    lt_min hX (by omega)
  rw [runWatcherStep_fail _ _ msg hb (min_le_right _ _) hexact] at hnext ⊢
  simp only at hnext
  rw [hnext]

/-- Witness of `backoff_law`: sample watcher A (period 10 s) after one success
and four failures holds a backoff of 10 s, the cap. -/
theorem backoff_law_witness :
    backoffAfter watcherA.Config.PeriodD Second ([none] ++ [some "a", some "b", some "c", some "d"])
      = min (Second * 2 ^ 4) watcherA.Config.PeriodD ∧
    (∀ msg, runWatcher watcherA ([none] ++ [some "a", some "b", some "c", some "d"] ++ [some msg])
      = runWatcher watcherA ([none] ++ [some "a", some "b", some "c", some "d"]) ++
          [{ alive := false,
             slept := min (Second * 2 ^ 4) watcherA.Config.PeriodD,
             backoff := min (Second * 2 ^ (4 + 1)) watcherA.Config.PeriodD }]) ∧
    (∀ b, runWatcherStep watcherA.Config.PeriodD b none
      = { alive := true, slept := watcherA.Config.PeriodD, backoff := Second }) :=
  backoff_law watcherA (by decide) (by decide) [none] [some "a", some "b", some "c", some "d"]
    (Or.inr ⟨[], rfl⟩) (by decide)

/-! ### Claims on the url watcher -/

/-- C10 (evaluation of the code): once `fetchScript` has returned a body,
`UrlWatcher.Check` returns a nil error whatever `executeScript` returns, also
when `Execute` is set and the script fails or runs into the deadline; on that
result `runWatcher` sends the watcher on `alive`, sleeps for the period and
resets the backoff. -/
theorem Check_drops_script_error (u : UrlWatcher) (body : String)
    (executed : String → Option String) (period backoff : Int) :
    u.Check (.ok body) executed = none ∧
    runWatcherStep period backoff (u.Check (.ok body) executed)
      = { alive := true, slept := period, backoff := Second } := by
  have h : u.Check (.ok body) executed = none := by
    unfold UrlWatcher.Check
    cases u.Execute <;> rfl
  rw [h]
  exact ⟨rfl, rfl⟩

end Piwatchdog
